import Mathlib

/-!
Verification development for the TREX barcode/lineage pipeline.

The definitions below are shallow embeddings of the Python sources:
`180425_lineage_loom.py` (barcode extraction and molecule consensus),
`src/trex/cli/run10x.py` and `src/braintrace/__main__.py` (clone-id
correction, similarity predicate, cell filtering, pipeline driver).
Strings are modelled as `List Char`, Python dicts as association lists
(in insertion order) or as explicitly updated functions, and fallible
operations (the `tinyalign.hamming_distance` length check and Python
`del` on a dict key) return `Option`/`Except`.
-/

/-- Embedding of `tinyalign.hamming_distance` (also `alignlib.hamming_distance`):
the number of mismatching positions of two equal-length strings; the library
raises on unequal lengths, which is modelled by `none`. -/
def hamming_distance (s t : List Char) : Option Nat :=
  if s.length = t.length then some (((s.zip t).filter fun p => p.1 ≠ p.2).length)
  else none

/-- Python `s.lstrip('-')`: drop leading dash characters. -/
def lstripDash (s : List Char) : List Char :=
  s.dropWhile fun c => c = '-'

/-- Python `s.rstrip('-')`: drop trailing dash characters. -/
def rstripDash (s : List Char) : List Char :=
  (s.reverse.dropWhile fun c => c = '-').reverse

/-- Python slice `t[-n:]` for a nonnegative `n`: the last `n` elements,
except that `n = 0` yields the whole list (because `-0 == 0` in Python). -/
def pySliceFromNeg (t : List Char) (n : Nat) : List Char :=
  if n = 0 then t else t.drop (t.length - n)

/-- Embedding of the local function `is_similar` of `correct_clone_ids`
(src/trex/cli/run10x.py lines 450-462, identical in
src/braintrace/__main__.py lines 347-359).  If either string contains `'-'`,
the first argument is trimmed of leading/trailing dashes and the second is
sliced to match; if the trimmed length is below `min_overlap` the result is
`False`; otherwise the Hamming distance over the compared region is tested.
`none` models the exception that `hamming_distance` raises on strings of
unequal length. -/
def is_similar (max_hamming min_overlap : Nat) (s t : List Char) : Option Bool :=
  if '-' ∈ s ∨ '-' ∈ t then
    let s1 := lstripDash s
    let t1 := pySliceFromNeg t s1.length
    let s2 := rstripDash s1
    if s2.length < min_overlap then some false
    else (hamming_distance s2 (t1.take s2.length)).map fun d => d ≤ max_hamming
  else (hamming_distance s t).map fun d => d ≤ max_hamming

example : is_similar 5 20 ['-'] ['-'] = some false := by decide
example : is_similar 0 1 ['-','A','A'] ['A','A','A'] = some true := by decide
example : is_similar 0 1 ['A','A','A'] ['-','A','A'] = some false := by decide
example : is_similar 5 20 ['A'] ['A','A'] = none := by decide

/-- The row of weights that one barcode symbol contributes to one position of
the per-group voting matrix (180425_lineage_loom.py lines 214-228): columns
are in the order A, C, G, T, `'-'`, `'0'`; a base contributes weight 1 in its
own column, the sentinels `'-'` and `'0'` contribute weight 1/10, and any
other character leaves the row zero.  All weights are scaled by 10 so that
they live in `Nat` (1 becomes 10, 1/10 becomes 1); a positive scaling leaves
every `argmax` comparison unchanged. -/
def alignRow (c : Char) : List Nat :=
  if c = 'A' then [10, 0, 0, 0, 0, 0]
  else if c = 'C' then [0, 10, 0, 0, 0, 0]
  else if c = 'G' then [0, 0, 10, 0, 0, 0]
  else if c = 'T' then [0, 0, 0, 10, 0, 0]
  else if c = '-' then [0, 0, 0, 0, 1, 0]
  else if c = '0' then [0, 0, 0, 0, 0, 1]
  else [0, 0, 0, 0, 0, 0]

/-- Row `l` of the voting matrix of a single barcode `b`: positions past the
end of `b` are never written by the `enumerate` loop and stay zero. -/
def alignRowAt (b : List Char) (l : Nat) : List Nat :=
  alignRow (b.getD l ' ')

/-- Helper for `argmaxIdx`: current index, best index so far, best value so
far. -/
def argmaxIdxAux : List Nat → Nat → Nat → Nat → Nat
  | [], _, best, _ => best
  | x :: xs, i, best, bv =>
    if bv < x then argmaxIdxAux xs (i + 1) i x else argmaxIdxAux xs (i + 1) best bv

/-- Embedding of `numpy.argmax` on one row: the first index attaining the
maximal value (0 for an empty row). -/
def argmaxIdx : List Nat → Nat
  | [] => 0
  | x :: xs => argmaxIdxAux xs 1 0 x

/-- The `letters` array of 180425_lineage_loom.py line 207. -/
def letters : List Char := ['A', 'C', 'G', 'T', '-', '0']

/-- Embedding of the consensus computation for a read group of size > 1
(180425_lineage_loom.py lines 212-233).  After the loop over the group, the
loop variable `align` holds the voting matrix of the LAST read only, and
line 230 computes `np.argmax(align, axis=1)` — the accumulated sum
`consens_np` is built but never used.  The result is therefore determined by
the last read of the group. -/
def codeConsensus (len_bc : Nat) (group : List (List Char)) : List Char :=
  match group.getLast? with
  | none => []
  | some b => (List.range len_bc).map fun l => letters.getD (argmaxIdx (alignRowAt b l)) 'A'

/-- Pointwise sum of two weight rows. -/
def addRow (r s : List Nat) : List Nat :=
  (r.zip s).map fun p => p.1 + p.2

/-- The accumulated voting matrix row at position `l`: the sum of the weight
rows of all reads of the group (the value `consens_np` of
180425_lineage_loom.py line 229 holds at row `l`). -/
def sumRowAt (group : List (List Char)) (l : Nat) : List Nat :=
  group.foldl (fun acc b => addRow acc (alignRowAt b l)) [0, 0, 0, 0, 0, 0]

/-- Follows the claim wording (spec section 4.2): the consensus of a read
group takes, at each of the `len_bc` positions, the symbol whose weight
summed over ALL reads of the group is maximal (A/C/G/T weigh 1, `'-'` and
`'0'` weigh 1/10), ties broken by the fixed priority order A, C, G, T,
`'-'`, `'0'`. -/
def specConsensus (len_bc : Nat) (group : List (List Char)) : List Char :=
  (List.range len_bc).map fun l => letters.getD (argmaxIdx (sumRowAt group l)) 'A'

/-- Embedding of the per-group molecule construction
(180425_lineage_loom.py lines 210-237): a group of more than one read gets
the consensus sequence, a single-read group keeps its barcode verbatim. -/
def groupClone (len_bc : Nat) (group : List (List Char)) : List Char :=
  if 1 < group.length then codeConsensus len_bc group else group.headD []

/-- The barcodes of one (cell, umi) read group in the order in which the
pipeline presents them to the consensus loop: `read_bam`
(180425_lineage_loom.py line 130) sorts all reads by (umi, cellID, barcode),
so inside one group the reads are sorted by barcode
(lexicographically). -/
def sortGroup (group : List (List Char)) : List (List Char) :=
  List.insertionSort (· ≤ ·) group

/-- The group-to-consensus map realized by the pipeline: sort the group's
barcodes as `read_bam` does, then run the consensus computation of
180425_lineage_loom.py lines 210-237. -/
def moleculeClone (len_bc : Nat) (group : List (List Char)) : List Char :=
  groupClone len_bc (sortGroup group)

example :
    moleculeClone 2 [['A','C'], ['A','C'], ['A','T']] = ['A','T'] := by decide
example :
    specConsensus 2 [['A','C'], ['A','C'], ['A','T']] = ['A','C'] := by decide

/-- The per-read alignment data that `read_bam`
(180425_lineage_loom.py lines 67-133) reads off a BAM record: the query
sequence, the aligned-pair list (query position or absent, reference
position or absent), the query alignment start/end, the reference start and
the inferred read length. -/
structure BamRead where
  queryseq : List Char
  aligned_pairs : List (Option Nat × Option Int)
  query_align_start : Int
  query_align_end : Int
  ref_start : Int
  len_read : Int
deriving DecidableEq, Repr

/-- One iteration of the aligned-pair loop of `read_bam`
(180425_lineage_loom.py lines 103-116), appending to the accumulated
barcode.  A pair whose reference position is absent goes through the
soft-clip recovery branches; a pair whose reference position lies strictly
inside `(start_bc, end_bc)` contributes the query base, or the deletion
sentinel `'0'` when the query position is absent. -/
def extractStep (start_bc end_bc : Int) (r : BamRead) (barcode : List Char) :
    Option Nat × Option Int → List Char
  | (qp?, none) =>
    let len_bc := end_bc - start_bc - 1
    let start_check := start_bc - r.len_read
    let end_check := start_check + len_bc + 2
    match qp? with
    | none => barcode
    | some qp =>
      if start_check < r.ref_start ∧ r.ref_start < end_check ∧ r.query_align_end ≤ (qp : Int) then
        if start_bc < r.ref_start + (qp : Int) ∧ r.ref_start + (qp : Int) < end_bc then
          barcode ++ [r.queryseq.getD qp '?']
        else barcode
      else
        if (qp : Int) < r.query_align_start ∧ start_bc < r.ref_start - len_bc + (qp : Int) ∧
            r.ref_start - len_bc + (qp : Int) < end_bc then
          barcode ++ [r.queryseq.getD qp '?']
        else barcode
  | (qp?, some rp) =>
    if start_bc < rp ∧ rp < end_bc then
      match qp? with
      | none => barcode ++ ['0']
      | some qp => barcode ++ [r.queryseq.getD qp '?']
    else barcode

/-- Embedding of the barcode extraction that `read_bam` performs for one
read (180425_lineage_loom.py lines 92-126): run the aligned-pair loop, then
replace an empty barcode by `len_bc` dashes, then pad a short barcode with
dashes, at the end when the read stops inside the barcode window and at the
front otherwise.  Note `len_bc = end_bc - start_bc - 1` (line 77). -/
def extractBarcode (start_bc end_bc : Int) (r : BamRead) : List Char :=
  let len_bc := end_bc - start_bc - 1
  let start_check := start_bc - r.len_read
  let end_check := start_check + len_bc + 2
  let barcode := r.aligned_pairs.foldl (extractStep start_bc end_bc r) []
  let barcode := if barcode = [] then List.replicate len_bc.toNat '-' else barcode
  if (barcode.length : Int) < len_bc then
    if start_check < r.ref_start ∧ r.ref_start < end_check then
      barcode ++ List.replicate (len_bc - barcode.length).toNat '-'
    else
      List.replicate (len_bc - barcode.length).toNat '-' ++ barcode
  else barcode

/-- A fully aligned two-base read used to exhibit the off-by-one between the
claimed barcode length `end - start` and the implemented
`end - start - 1`. -/
def fullReadTwo : BamRead :=
  { queryseq := ['A', 'A']
    aligned_pairs := [(some 0, some 0), (some 1, some 1)]
    query_align_start := 0
    query_align_end := 2
    ref_start := 0
    len_read := 2 }

example : extractBarcode 0 2 fullReadTwo = ['A'] := by decide

/-- The Molecule record of the TREX pipeline (named tuple with fields
cell_id, umi, clone_id, read_count; see trex.utils.molecule_list_to_df). -/
structure Molecule where
  cell_id : List Char
  umi : List Char
  clone_id : List Char
  read_count : Nat
deriving DecidableEq, Repr

/-- The Cell record: a cell id together with its clone_id -> count mapping,
modelled as an association list in dict insertion order. -/
structure Cell where
  cell_id : List Char
  counts : List (List Char × Nat)
deriving DecidableEq, Repr

/-- Python key `(counts[bc], bc)` used by `max` in `correct_clone_ids`
(src/trex/cli/run10x.py line 471): compare occurrence count first, then the
string itself lexicographically; `keyLt` is a strict comparison. -/
def keyLt (counts : List Char → Nat) (a b : List Char) : Prop :=
  counts a < counts b ∨ (counts a = counts b ∧ a < b)

instance (counts : List Char → Nat) (a b : List Char) : Decidable (keyLt counts a b) := by
  unfold keyLt
  infer_instance

/-- Python `max(cluster, key=lambda bc: (counts[bc], bc))`: fold keeping the
current best, replacing it only when a strictly greater key appears (Python
`max` keeps the first maximal element; with the string in the key, ties are
impossible for distinct members).  Python raises on an empty sequence; the
`[]` case is unreachable because clusters are nonempty. -/
def pyMaxByKey (counts : List Char → Nat) : List (List Char) → List Char
  | [] => []
  | x :: xs => xs.foldl (fun best bc => if keyLt counts best bc then bc else best) x

/-- Update of a Python dict viewed as a partial function: later insertions
override earlier ones. -/
def dictInsert (m : List Char → Option (List Char)) (k v : List Char) :
    List Char → Option (List Char) :=
  fun x => if x = k then some v else m x

/-- Embedding of the `clone_id_map` construction of `correct_clone_ids`
(src/trex/cli/run10x.py lines 467-473): for every cluster with more than one
member, map each member to the cluster's representative
`max(cluster, key=lambda bc: (counts[bc], bc))`. -/
def cloneIdMap (counts : List Char → Nat) (clusters : List (List (List Char))) :
    List Char → Option (List Char) :=
  clusters.foldl
    (fun m cluster =>
      if 1 < cluster.length then
        cluster.foldl (fun m cid => dictInsert m cid (pyMaxByKey counts cluster)) m
      else m)
    (fun _ => none)

/-- The global occurrence count of each clone id among the molecules
(`counts = Counter(clone_ids)`, src/trex/cli/run10x.py line 447). -/
def cloneIdCount (molecules : List Molecule) (cid : List Char) : Nat :=
  (molecules.map Molecule.clone_id).count cid

/-- Embedding of `correct_clone_ids` (src/trex/cli/run10x.py lines 437-481,
identical in src/braintrace/__main__.py lines 335-378) with the cluster list
as a parameter: `cluster_sequences` (module trex.clustering, not under src/)
produces the clusters; every molecule whose clone id has a mapping is
rewritten to its cluster representative, all other fields are kept. -/
def correct_clone_ids (clusters : List (List (List Char))) (molecules : List Molecule) :
    List Molecule :=
  let m := cloneIdMap (cloneIdCount molecules) clusters
  molecules.map fun mol =>
    { mol with clone_id := (m mol.clone_id).getD mol.clone_id }

/-- Modelled from the spec: `cluster_sequences` (module trex.clustering,
called at src/trex/cli/run10x.py line 464, not under src/) buckets the
DISTINCT clone id strings and returns the transitive closure of `is_similar`
as clusters, i.e. a partition of the distinct clone ids.  We model its
output as any list of clusters that are pairwise disjoint and duplicate-free. -/
def IsPartitionOutput (clusters : List (List (List Char))) : Prop :=
  clusters.Pairwise (fun c d => ∀ x, x ∈ c → x ∉ d) ∧ ∀ c ∈ clusters, c.Nodup

/-- The sum of the counts recorded for clone id `cid` in an association
list. -/
def sumCounts (l : List (List Char × Nat)) (cid : List Char) : Nat :=
  ((l.filter fun p => p.1 = cid).map Prod.snd).sum

/-- The `overall_counts` Counter of `filter_cells`
(src/trex/cli/run10x.py lines 534-536): `Counter.update` adds the per-cell
counts, so the overall count of a clone id is its count summed over all
cells. -/
def overallCount (cells : List Cell) (cid : List Char) : Nat :=
  sumCounts (cells.flatMap Cell.counts) cid

/-- The `single_read_clone_ids` set of `filter_cells`
(src/trex/cli/run10x.py lines 538-541): clone ids of molecules whose
read_count is 1. -/
def isSingleReadCloneId (molecules : List Molecule) (cid : List Char) : Bool :=
  molecules.any fun m => m.read_count = 1 ∧ m.clone_id = cid

/-- The per-entry decision of the `filter_cells` loop
(src/trex/cli/run10x.py lines 546-556): keep an entry whose count is
greater than one; otherwise delete it when its overall count exceeds one
(contamination) or when it is a single-read clone id and single reads are
not kept. -/
def keepEntry (overall : List Char → Nat) (single : List Char → Bool)
    (keep_single_reads : Bool) (p : List Char × Nat) : Bool :=
  if 1 < p.2 then true
  else if 1 < overall p.1 then false
  else if single p.1 ∧ ¬keep_single_reads then false
  else true

/-- Embedding of `filter_cells` (src/trex/cli/run10x.py lines 521-559,
identical in src/braintrace/__main__.py lines 381-419): filter each cell's
count table entrywise and drop cells whose table becomes empty. -/
def filter_cells (cells : List Cell) (molecules : List Molecule)
    (keep_single_reads : Bool) : List Cell :=
  cells.filterMap fun cell =>
    let counts := cell.counts.filter
      (keepEntry (overallCount cells) (isSingleReadCloneId molecules) keep_single_reads)
    if counts.isEmpty then none else some { cell_id := cell.cell_id, counts := counts }

/-- Python `del counts[clone_id]`: remove the key from the dict, raising
KeyError (modelled by `Except.error`) when the key is absent. -/
def delKey (counts : List (List Char × Nat)) (k : List Char) :
    Except Unit (List (List Char × Nat)) :=
  if counts.any fun p => p.1 = k then .ok (counts.filter fun p => p.1 ≠ k)
  else .error ()

/-- Does a molecule match the `filter_visium` deletion test
(src/trex/cli/run10x.py lines 502-506): same cell id, same clone id and a
read count of exactly one. -/
def visiumMatch (cell_id cid : List Char) (m : Molecule) : Prop :=
  m.cell_id = cell_id ∧ m.clone_id = cid ∧ m.read_count = 1

instance (cell_id cid : List Char) (m : Molecule) : Decidable (visiumMatch cell_id cid m) := by
  unfold visiumMatch
  infer_instance

/-- The inner molecule loop of `filter_visium`
(src/trex/cli/run10x.py lines 501-509) for one low-count entry: every
matching molecule triggers `del counts[clone_id]`; a second matching
molecule therefore raises KeyError, faithfully modelled by `delKey`. -/
def visiumEntryStep (cell_id cid : List Char) :
    List Molecule → List (List Char × Nat) → Except Unit (List (List Char × Nat))
  | [], counts => .ok counts
  | m :: ms, counts =>
    if visiumMatch cell_id cid m then
      match delKey counts cid with
      | .error e => .error e
      | .ok counts => visiumEntryStep cell_id cid ms counts
    else visiumEntryStep cell_id cid ms counts

/-- The outer entry loop of `filter_visium`
(src/trex/cli/run10x.py lines 497-509): iterate over the cell's original
entries, skipping entries whose count exceeds one and running the molecule
loop for the rest, mutating the copied count table. -/
def visiumEntries (molecules : List Molecule) (cell_id : List Char) :
    List (List Char × Nat) → List (List Char × Nat) → Except Unit (List (List Char × Nat))
  | [], counts => .ok counts
  | p :: rest, counts =>
    if 1 < p.2 then visiumEntries molecules cell_id rest counts
    else
      match visiumEntryStep cell_id p.1 molecules counts with
      | .error e => .error e
      | .ok counts => visiumEntries molecules cell_id rest counts

/-- Processing of one cell by `filter_visium`
(src/trex/cli/run10x.py lines 494-513): run the entry loop on a copy of the
count table; a cell whose table becomes empty is dropped (`none`). -/
def filterVisiumCell (molecules : List Molecule) (cell : Cell) :
    Except Unit (Option Cell) :=
  match visiumEntries molecules cell.cell_id cell.counts cell.counts with
  | .error e => .error e
  | .ok counts =>
    if counts.isEmpty then .ok none
    else .ok (some { cell_id := cell.cell_id, counts := counts })

/-- Embedding of `filter_visium` (src/trex/cli/run10x.py lines 484-518):
process the cells in order, keeping the cells whose count table stays
nonempty; an error in any cell (the KeyError of a double deletion) aborts
the whole call. -/
def filter_visium (cells : List Cell) (molecules : List Molecule) :
    Except Unit (List Cell) :=
  match cells with
  | [] => .ok []
  | cell :: rest =>
    match filterVisiumCell molecules cell with
    | .error e => .error e
    | .ok r =>
      match filter_visium rest molecules with
      | .error e => .error e
      | .ok rs =>
        match r with
        | none => .ok rs
        | some c => .ok (c :: rs)

/-- The observable events of a `run_trex` run that the claims talk about:
output files written, and a raised TrexError. -/
inductive TrexEvent where
  | write (file : String)
  | trexError (msg : String)
deriving DecidableEq, Repr

/-- Trace-level embedding of `run_trex`
(src/trex/cli/run10x.py lines 280-408): the guard on duplicate sample names
(line 301) and the guard on an empty read list (lines 310-311) run before
any output file is written; on the success path the pipeline writes its
reads/molecules/cells/components/clones files in program order.  The
contents of the files are produced by downstream stages (compute_molecules,
compute_cells, CloneGraph — modules not under src/) and are abstracted
away; only the event order matters here. -/
def run_trex_events (sample_names : List String) (reads : List (List Char)) :
    List TrexEvent :=
  if ¬sample_names.Nodup then [.trexError "The sample names need to be unique"]
  else if reads.isEmpty then [.trexError "No reads left after --filter-cellids filtering"]
  else
    [.write "reads.txt", .write "molecules.txt", .write "molecules_corrected.txt",
     .write "cells.txt", .write "cells_filtered.txt", .write "components.txt",
     .write "components_corrected.txt", .write "clones.txt", .write "clone_sequences.txt"]

/-- C1: the claim says the consensus of a group of n > 1 reads takes, at each
position, the symbol with the maximal weight summed over ALL reads.  The code
(180425_lineage_loom.py line 230) instead applies `np.argmax` to `align`, the
voting matrix of the last read of the group, while the accumulated sum
`consens_np` is computed (line 229) and never used — contradicting the code's
own comments ("sums up binary code of all sequences, calculates max value for
each position").  On the sorted group AC, AC, AT the pipeline consensus is AT
(the last read), whereas the claimed plurality vote yields AC. -/
theorem consensus_uses_last_read_not_sum :
    moleculeClone 2 [['A','C'], ['A','C'], ['A','T']] = ['A','T'] ∧
    specConsensus 2 [['A','C'], ['A','C'], ['A','T']] = ['A','C'] ∧
    moleculeClone 2 [['A','C'], ['A','C'], ['A','T']] ≠
      specConsensus 2 [['A','C'], ['A','C'], ['A','T']] := by
  decide

/-- C9: when the dataset reader returns zero reads, `run_trex` raises a
TrexError (src/trex/cli/run10x.py lines 310-311) and the event trace contains
no file write: the only event is the raised error (for duplicate sample names
the earlier guard of line 301 raises instead, also before any write). -/
theorem run_trex_empty_reads_error (sample_names : List String) :
    ∃ msg, run_trex_events sample_names [] = [TrexEvent.trexError msg] := by
  unfold run_trex_events
  by_cases h : sample_names.Nodup
  · exact ⟨"No reads left after --filter-cellids filtering", by simp [h]⟩
  · exact ⟨"The sample names need to be unique", by simp [h]⟩

/-- C10: `correct_clone_ids` maps each input molecule to an output molecule in
the same position, preserving cell_id, umi and read_count; only the clone_id
field can change, and the output has the same length as the input. -/
theorem correct_clone_ids_preserves_frame (clusters : List (List (List Char)))
    (molecules : List Molecule) :
    (correct_clone_ids clusters molecules).length = molecules.length ∧
    List.Forall₂
      (fun m m' => m.cell_id = m'.cell_id ∧ m.umi = m'.umi ∧ m.read_count = m'.read_count)
      molecules (correct_clone_ids clusters molecules) := by
  constructor
  · unfold correct_clone_ids
    exact List.length_map _ _
  · unfold correct_clone_ids
    rw [List.forall₂_map_right_iff]
    exact List.forall₂_same.mpr fun m _ => ⟨rfl, rfl, rfl⟩

theorem mismatchCount_comm (s t : List Char) :
    ((s.zip t).filter fun p => p.1 ≠ p.2).length =
      ((t.zip s).filter fun p => p.1 ≠ p.2).length := by
  induction s generalizing t with
  | nil => cases t <;> rfl
  | cons a s ih =>
    cases t with
    | nil => rfl
    | cons b t =>
      rw [List.zip_cons_cons, List.zip_cons_cons, List.filter_cons, List.filter_cons]
      have hab : decide ((a, b).1 ≠ (a, b).2) = decide ((b, a).1 ≠ (b, a).2) :=
        decide_eq_decide.mpr (by constructor <;> exact fun h hh => h hh.symm)
      rw [← hab]
      cases hv : decide ((a, b).1 ≠ (a, b).2)
      · rw [if_neg (by simp), if_neg (by simp)]
        exact ih t
      · rw [if_pos rfl, if_pos rfl, List.length_cons, List.length_cons, ih t]

theorem hamming_distance_comm (s t : List Char) :
    hamming_distance s t = hamming_distance t s := by
  unfold hamming_distance
  by_cases h : s.length = t.length
  · rw [if_pos h, if_pos h.symm, mismatchCount_comm]
  · rw [if_neg h, if_neg fun hh => h hh.symm]

theorem hamming_distance_self (s : List Char) : hamming_distance s s = some 0 := by
  unfold hamming_distance
  rw [if_pos rfl]
  have hnil : ((s.zip s).filter fun p => p.1 ≠ p.2) = [] := by
    rw [List.filter_eq_nil_iff]
    intro p hp
    have : p.1 = p.2 := by
      induction s with
      | nil => cases hp
      | cons a s ih =>
        rw [List.zip_cons_cons, List.mem_cons] at hp
        rcases hp with h | h
        · rw [h]
        · exact ih h
    simp [this]
  rw [hnil]
  rfl

theorem rstripDash_append (s : List Char) : ∃ d, s = rstripDash s ++ d := by
  refine ⟨(s.reverse.takeWhile fun c => c = '-').reverse, ?_⟩
  unfold rstripDash
  rw [← List.reverse_append, List.takeWhile_append_dropWhile, List.reverse_reverse]

theorem pySliceFromNeg_lstrip (s : List Char) (h : lstripDash s ≠ []) :
    pySliceFromNeg s (lstripDash s).length = lstripDash s := by
  unfold pySliceFromNeg
  rw [if_neg (by simpa using h)]
  set s1 := lstripDash s with hs1
  set tw := s.takeWhile fun c => c = '-' with htw
  have heq : tw ++ s1 = s := List.takeWhile_append_dropWhile _ _
  rw [← heq]
  have hlen : (tw ++ s1).length - s1.length = tw.length := by
    rw [List.length_append]
    omega
  rw [hlen, List.drop_left]

/-- Counterexample to C3 as stated: the similarity predicate of
`correct_clone_ids` is neither reflexive nor symmetric on arbitrary strings.
With the defaults max_hamming = 5, min_overlap = 20, `is_similar("-", "-")`
is False because trimming leaves an overlap of length 0 < 20; and with
max_hamming = 0, min_overlap = 1, `is_similar("-AA", "AAA")` is True while
`is_similar("AAA", "-AA")` is False, because only the FIRST argument is
trimmed of dashes. -/
theorem is_similar_not_refl_not_symm :
    is_similar 5 20 ['-'] ['-'] = some false ∧
    is_similar 0 1 ['-','A','A'] ['A','A','A'] = some true ∧
    is_similar 0 1 ['A','A','A'] ['-','A','A'] = some false := by
  decide

/-- C3 amended: `is_similar(s, s)` is True whenever the dash-trimmed core of
`s` is at least min_overlap long (in particular whenever `s` contains no
dash at all), and `is_similar` is symmetric on equal-length strings that
contain no dash. -/
theorem is_similar_refl_symm (max_hamming min_overlap : Nat) :
    (∀ s : List Char,
      min_overlap ≤ (rstripDash (lstripDash s)).length ∨ '-' ∉ s →
      is_similar max_hamming min_overlap s s = some true) ∧
    (∀ s t : List Char, s.length = t.length → '-' ∉ s → '-' ∉ t →
      is_similar max_hamming min_overlap s t = is_similar max_hamming min_overlap t s) := by
  constructor
  · intro s hs
    unfold is_similar
    by_cases hd : '-' ∈ s
    · rw [if_pos (Or.inl hd)]
      have hcore : min_overlap ≤ (rstripDash (lstripDash s)).length := by
        rcases hs with h | h
        · exact h
        · exact absurd hd h
      rw [if_neg (by omega)]
      by_cases h1 : lstripDash s = []
      · rw [h1]
        have h2 : rstripDash ([] : List Char) = [] := rfl
        rw [h2]
        simp [hamming_distance_self]
      · rw [pySliceFromNeg_lstrip s h1]
        set s1 := lstripDash s with hs1
        set s2 := rstripDash s1 with hs2
        obtain ⟨d, hd2⟩ := rstripDash_append s1
        rw [← hs2] at hd2
        conv_lhs => rw [hd2]
        rw [List.take_left, hamming_distance_self]
        simp
    · rw [if_neg (by simp [hd])]
      simp [hamming_distance_self]
  · intro s t hlen hs ht
    unfold is_similar
    rw [if_neg (by simp [hs, ht]), if_neg (by simp [hs, ht]), hamming_distance_comm]

theorem is_similar_refl_symm_witness :
    is_similar 5 20 ['A'] ['A'] = some true ∧
    is_similar 5 20 ['A'] ['C'] = is_similar 5 20 ['C'] ['A'] :=
  ⟨(is_similar_refl_symm 5 20).1 ['A'] (Or.inr (by decide)),
   (is_similar_refl_symm 5 20).2 ['A'] ['C'] rfl (by decide) (by decide)⟩

/-- Counterexample to C7 as stated: `is_similar` is not total on arbitrary
string pairs — on dash-free strings of unequal length it calls
`tinyalign.hamming_distance`, which raises on unequal lengths (modelled by
`none`). -/
theorem is_similar_raises_unequal_length : is_similar 5 20 ['A'] ['A','A'] = none := by
  decide

/-- C7 amended: `is_similar` is total (returns a boolean, never raises) on
every pair of EQUAL-LENGTH strings — the shape of all clone ids in the
pipeline — and whenever either string contains a dash and the trimmed
overlap is shorter than min_overlap it returns False. -/
theorem is_similar_total_equal_length (max_hamming min_overlap : Nat) :
    (∀ s t : List Char, s.length = t.length →
      (is_similar max_hamming min_overlap s t).isSome) ∧
    (∀ s t : List Char, ('-' ∈ s ∨ '-' ∈ t) →
      (rstripDash (lstripDash s)).length < min_overlap →
      is_similar max_hamming min_overlap s t = some false) := by
  constructor
  · intro s t hlen
    unfold is_similar
    by_cases hd : '-' ∈ s ∨ '-' ∈ t
    · rw [if_pos hd]
      by_cases hshort : (rstripDash (lstripDash (s := s))).length < min_overlap
      · rw [if_pos hshort]
        rfl
      · rw [if_neg hshort]
        set s1 := lstripDash s with hs1
        set s2 := rstripDash s1 with hs2
        have h2le1 : s2.length ≤ s1.length := by
          obtain ⟨d, hd2⟩ := rstripDash_append s1
          rw [← hs2] at hd2
          calc s2.length ≤ s2.length + d.length := Nat.le_add_right _ _
            _ = s1.length := by rw [hd2, List.length_append]
        have h1les : s1.length ≤ s.length := by
          rw [hs1]
          exact (List.dropWhile_sublist _).length_le
        have htake : ((pySliceFromNeg t s1.length).take s2.length).length = s2.length := by
          rw [List.length_take]
          unfold pySliceFromNeg
          by_cases h0 : s1.length = 0
          · rw [if_pos h0]
            omega
          · rw [if_neg h0, List.length_drop]
            omega
        unfold hamming_distance
        rw [if_pos htake.symm]
        rfl
    · rw [if_neg hd]
      unfold hamming_distance
      rw [if_pos hlen]
      rfl
  · intro s t hd hshort
    unfold is_similar
    rw [if_pos hd, if_pos hshort]

theorem is_similar_total_equal_length_witness :
    (is_similar 5 20 ['A'] ['C']).isSome ∧
    is_similar 5 20 ['-'] ['C'] = some false :=
  ⟨(is_similar_total_equal_length 5 20).1 ['A'] ['C'] rfl,
   (is_similar_total_equal_length 5 20).2 ['-'] ['C'] (Or.inl (by decide)) (by decide)⟩

theorem delKey_ok (cs : List (List Char × Nat)) (k : List Char)
    (cs' : List (List Char × Nat)) (h : delKey cs k = .ok cs') :
    cs' = cs.filter fun p => p.1 ≠ k := by
  unfold delKey at h
  by_cases ha : cs.any fun p => p.1 = k
  · rw [if_pos ha] at h
    exact (Except.ok.inj h).symm
  · rw [if_neg ha] at h
    exact Except.noConfusion h

theorem visiumEntryStep_sublist (cell_id cid : List Char) (ms : List Molecule)
    (cs cs' : List (List Char × Nat))
    (h : visiumEntryStep cell_id cid ms cs = .ok cs') : cs'.Sublist cs := by
  induction ms generalizing cs with
  | nil =>
    simp only [visiumEntryStep] at h
    rw [Except.ok.inj h]
  | cons m ms ih =>
    simp only [visiumEntryStep] at h
    by_cases hm : visiumMatch cell_id cid m
    · rw [if_pos hm] at h
      cases hd : delKey cs cid with
      | error e => rw [hd] at h; exact Except.noConfusion h
      | ok cs1 =>
        rw [hd] at h
        exact (ih cs1 h).trans (delKey_ok cs cid cs1 hd ▸ List.filter_sublist cs)
    · rw [if_neg hm] at h
      exact ih cs h

theorem visiumEntryStep_removes (cell_id cid : List Char) (ms : List Molecule)
    (cs cs' : List (List Char × Nat))
    (h : visiumEntryStep cell_id cid ms cs = .ok cs')
    (hm : ∃ m ∈ ms, visiumMatch cell_id cid m) :
    ∀ p ∈ cs', p.1 ≠ cid := by
  induction ms generalizing cs with
  | nil => obtain ⟨m, hmem, _⟩ := hm; cases hmem
  | cons m ms ih =>
    simp only [visiumEntryStep] at h
    by_cases hmm : visiumMatch cell_id cid m
    · rw [if_pos hmm] at h
      cases hd : delKey cs cid with
      | error e => rw [hd] at h; exact Except.noConfusion h
      | ok cs1 =>
        rw [hd] at h
        intro p hp
        have hp1 : p ∈ cs1 := (visiumEntryStep_sublist cell_id cid ms cs1 cs' h).subset hp
        rw [delKey_ok cs cid cs1 hd] at hp1
        simpa using (List.mem_filter.mp hp1).2
    · rw [if_neg hmm] at h
      obtain ⟨m', hmem', hmm'⟩ := hm
      rcases List.mem_cons.mp hmem' with rfl | hmem'
      · exact absurd hmm' hmm
      · exact ih cs h ⟨m', hmem', hmm'⟩

theorem visiumEntryStep_id (cell_id cid : List Char) (ms : List Molecule)
    (cs : List (List Char × Nat))
    (h : ∀ m ∈ ms, ¬visiumMatch cell_id cid m) :
    visiumEntryStep cell_id cid ms cs = .ok cs := by
  induction ms with
  | nil => rfl
  | cons m ms ih =>
    simp only [visiumEntryStep]
    rw [if_neg (h m (List.mem_cons_self m ms))]
    exact ih fun m' hm' => h m' (List.mem_cons_of_mem m hm')

theorem visiumEntryStep_keeps (cell_id cid : List Char) (ms : List Molecule)
    (cs cs' : List (List Char × Nat))
    (h : visiumEntryStep cell_id cid ms cs = .ok cs')
    (p : List Char × Nat) (hp : p ∈ cs) (hne : p.1 ≠ cid) : p ∈ cs' := by
  induction ms generalizing cs with
  | nil =>
    simp only [visiumEntryStep] at h
    rw [← Except.ok.inj h]
    exact hp
  | cons m ms ih =>
    simp only [visiumEntryStep] at h
    by_cases hm : visiumMatch cell_id cid m
    · rw [if_pos hm] at h
      cases hd : delKey cs cid with
      | error e => rw [hd] at h; exact Except.noConfusion h
      | ok cs1 =>
        rw [hd] at h
        refine ih cs1 h ?_
        rw [delKey_ok cs cid cs1 hd]
        exact List.mem_filter.mpr ⟨hp, by simpa using hne⟩
    · rw [if_neg hm] at h
      exact ih cs h hp

theorem visiumEntries_sublist (mols : List Molecule) (cell_id : List Char)
    (entries cs final : List (List Char × Nat))
    (h : visiumEntries mols cell_id entries cs = .ok final) : final.Sublist cs := by
  induction entries generalizing cs with
  | nil =>
    simp only [visiumEntries] at h
    rw [Except.ok.inj h]
  | cons q rest ih =>
    simp only [visiumEntries] at h
    by_cases hq : 1 < q.2
    · rw [if_pos hq] at h
      exact ih cs h
    · rw [if_neg hq] at h
      cases hs : visiumEntryStep cell_id q.1 mols cs with
      | error e => rw [hs] at h; exact Except.noConfusion h
      | ok cs1 =>
        rw [hs] at h
        exact (ih cs1 h).trans (visiumEntryStep_sublist cell_id q.1 mols cs cs1 hs)

theorem visiumEntries_no_match (mols : List Molecule) (cell_id : List Char)
    (entries cs final : List (List Char × Nat))
    (h : visiumEntries mols cell_id entries cs = .ok final) :
    ∀ p ∈ entries, ¬1 < p.2 → p ∈ final → ∀ m ∈ mols, ¬visiumMatch cell_id p.1 m := by
  induction entries generalizing cs with
  | nil => intro p hp; cases hp
  | cons q rest ih =>
    simp only [visiumEntries] at h
    by_cases hq : 1 < q.2
    · rw [if_pos hq] at h
      intro p hp hple hpf m hm hmm
      rcases List.mem_cons.mp hp with rfl | hp'
      · exact hple hq
      · exact ih cs h p hp' hple hpf m hm hmm
    · rw [if_neg hq] at h
      cases hs : visiumEntryStep cell_id q.1 mols cs with
      | error e => rw [hs] at h; exact Except.noConfusion h
      | ok cs1 =>
        rw [hs] at h
        intro p hp hple hpf m hm hmm
        rcases List.mem_cons.mp hp with rfl | hp'
        · have hnokey : ∀ x ∈ cs1, x.1 ≠ p.1 :=
            visiumEntryStep_removes cell_id p.1 mols cs cs1 hs ⟨m, hm, hmm⟩
          have hpf1 : p ∈ cs1 :=
            (visiumEntries_sublist mols cell_id rest cs1 final h).subset hpf
          exact hnokey p hpf1 rfl
        · exact ih cs1 h p hp' hple hpf m hm hmm

theorem visiumEntries_id (mols : List Molecule) (cell_id : List Char)
    (entries cs : List (List Char × Nat))
    (h : ∀ p ∈ entries, ¬1 < p.2 → ∀ m ∈ mols, ¬visiumMatch cell_id p.1 m) :
    visiumEntries mols cell_id entries cs = .ok cs := by
  induction entries generalizing cs with
  | nil => rfl
  | cons q rest ih =>
    simp only [visiumEntries]
    by_cases hq : 1 < q.2
    · rw [if_pos hq]
      exact ih cs fun p hp => h p (List.mem_cons_of_mem q hp)
    · rw [if_neg hq]
      rw [visiumEntryStep_id cell_id q.1 mols cs (h q (List.mem_cons_self q rest) hq)]
      exact ih cs fun p hp => h p (List.mem_cons_of_mem q hp)

theorem visiumEntries_keeps (mols : List Molecule) (cell_id : List Char)
    (entries cs final : List (List Char × Nat))
    (h : visiumEntries mols cell_id entries cs = .ok final)
    (p : List Char × Nat) (hp : p ∈ cs)
    (hkeys : ∀ q ∈ entries, q.1 = p.1 → 1 < q.2) : p ∈ final := by
  induction entries generalizing cs with
  | nil =>
    simp only [visiumEntries] at h
    rw [← Except.ok.inj h]
    exact hp
  | cons q rest ih =>
    simp only [visiumEntries] at h
    by_cases hq : 1 < q.2
    · rw [if_pos hq] at h
      exact ih cs h hp fun q' hq' => hkeys q' (List.mem_cons_of_mem q hq')
    · rw [if_neg hq] at h
      cases hs : visiumEntryStep cell_id q.1 mols cs with
      | error e => rw [hs] at h; exact Except.noConfusion h
      | ok cs1 =>
        rw [hs] at h
        have hne : p.1 ≠ q.1 := fun heq =>
          hq (hkeys q (List.mem_cons_self q rest) heq.symm)
        exact ih cs1 h (visiumEntryStep_keeps cell_id q.1 mols cs cs1 hs p hp hne)
          fun q' hq' => hkeys q' (List.mem_cons_of_mem q hq')

theorem filterVisiumCell_idem (mols : List Molecule) (cell c' : Cell)
    (h : filterVisiumCell mols cell = .ok (some c')) :
    filterVisiumCell mols c' = .ok (some c') := by
  unfold filterVisiumCell at h
  cases hv : visiumEntries mols cell.cell_id cell.counts cell.counts with
  | error e => rw [hv] at h; exact Except.noConfusion h
  | ok final =>
    rw [hv] at h
    dsimp only at h
    by_cases hemp : final.isEmpty
    · rw [if_pos hemp] at h
      exact Option.noConfusion (Except.ok.inj h)
    · rw [if_neg hemp] at h
      have hc' : c' = { cell_id := cell.cell_id, counts := final } :=
        (Option.some.inj (Except.ok.inj h)).symm
      have hnm : ∀ p ∈ final, ¬1 < p.2 → ∀ m ∈ mols, ¬visiumMatch cell.cell_id p.1 m := by
        intro p hp hple
        exact visiumEntries_no_match mols cell.cell_id cell.counts cell.counts final hv p
          ((visiumEntries_sublist mols cell.cell_id cell.counts cell.counts final hv).subset hp)
          hple hp
      unfold filterVisiumCell
      rw [hc']
      rw [visiumEntries_id mols cell.cell_id final final hnm]
      dsimp only
      rw [if_neg hemp]

theorem filter_visium_mem (cells : List Cell) (mols : List Molecule) :
    ∀ out, filter_visium cells mols = .ok out → ∀ cell ∈ cells,
    ∃ r, filterVisiumCell mols cell = .ok r ∧ ∀ c', r = some c' → c' ∈ out := by
  induction cells with
  | nil => intro out h cell hc; cases hc
  | cons x rest ih =>
    intro out h cell hc
    simp only [filter_visium] at h
    cases hx : filterVisiumCell mols x with
    | error e => rw [hx] at h; exact Except.noConfusion h
    | ok r =>
      rw [hx] at h
      cases hrest : filter_visium rest mols with
      | error e => rw [hrest] at h; exact Except.noConfusion h
      | ok rs =>
        rw [hrest] at h
        rcases List.mem_cons.mp hc with rfl | hc'
        · refine ⟨r, hx, fun c' hr => ?_⟩
          subst hr
          rw [← Except.ok.inj h]
          exact List.mem_cons_self c' rs
        · obtain ⟨r', hr', hin⟩ := ih rs hrest cell hc'
          refine ⟨r', hr', fun c' hrc => ?_⟩
          have hc'' := hin c' hrc
          cases r with
          | none =>
            rw [← Except.ok.inj h]
            exact hc''
          | some d =>
            rw [← Except.ok.inj h]
            exact List.mem_cons_of_mem d hc''

theorem filter_visium_idem (cells : List Cell) (mols : List Molecule) :
    ∀ out, filter_visium cells mols = .ok out → filter_visium out mols = .ok out := by
  induction cells with
  | nil =>
    intro out h
    simp only [filter_visium] at h
    rw [← Except.ok.inj h]
    rfl
  | cons x rest ih =>
    intro out h
    simp only [filter_visium] at h
    cases hx : filterVisiumCell mols x with
    | error e => rw [hx] at h; exact Except.noConfusion h
    | ok r =>
      rw [hx] at h
      cases hrest : filter_visium rest mols with
      | error e => rw [hrest] at h; exact Except.noConfusion h
      | ok rs =>
        rw [hrest] at h
        have hrs := ih rs hrest
        cases r with
        | none =>
          rw [← Except.ok.inj h]
          exact hrs
        | some c' =>
          rw [← Except.ok.inj h]
          simp only [filter_visium]
          rw [filterVisiumCell_idem mols x c' hx, hrs]

theorem nodupKeys_eq (l : List (List Char × Nat)) (h : (l.map Prod.fst).Nodup)
    (a : List Char) (b c : Nat) (hb : (a, b) ∈ l) (hc : (a, c) ∈ l) : b = c := by
  induction l with
  | nil => cases hb
  | cons p rest ih =>
    rw [List.map_cons, List.nodup_cons] at h
    rcases List.mem_cons.mp hb with heqb | hb' <;> rcases List.mem_cons.mp hc with heqc | hc'
    · have : (a, b) = (a, c) := heqb.trans heqc.symm
      exact (Prod.mk.injEq _ _ _ _ ▸ this).2
    · exact absurd (List.mem_map.mpr ⟨(a, c), hc', by rw [← heqb]⟩) h.1
    · exact absurd (List.mem_map.mpr ⟨(a, b), hb', by rw [← heqc]⟩) h.1
    · exact ih h.2 hb' hc'

theorem filterMap_eq_self_of (f : Cell → Option Cell) (l : List Cell)
    (h : ∀ x ∈ l, f x = some x) : l.filterMap f = l := by
  induction l with
  | nil => rfl
  | cons x rest ih =>
    rw [List.filterMap_cons, h x (List.mem_cons_self x rest)]
    rw [ih fun y hy => h y (List.mem_cons_of_mem x hy)]

theorem filter_cells_mem_elim (cells : List Cell) (mols : List Molecule)
    (k : Bool) (cell' : Cell) (h : cell' ∈ filter_cells cells mols k) :
    cell'.counts ≠ [] ∧
    ∃ cell ∈ cells, cell'.cell_id = cell.cell_id ∧
      cell'.counts = cell.counts.filter
        (keepEntry (overallCount cells) (isSingleReadCloneId mols) k) := by
  unfold filter_cells at h
  obtain ⟨cell, hcell, hf⟩ := List.mem_filterMap.mp h
  by_cases hemp : (cell.counts.filter
      (keepEntry (overallCount cells) (isSingleReadCloneId mols) k)).isEmpty
  · rw [if_pos hemp] at hf
    exact Option.noConfusion hf
  · rw [if_neg hemp] at hf
    obtain rfl := Option.some.inj hf
    refine ⟨?_, cell, hcell, rfl, rfl⟩
    intro hnil
    apply hemp
    have hnil2 : cell.counts.filter
        (keepEntry (overallCount cells) (isSingleReadCloneId mols) k) = [] := hnil
    rw [hnil2]
    rfl

theorem filter_cells_flatMap_sublist (cells : List Cell) (mols : List Molecule) (k : Bool) :
    ((filter_cells cells mols k).flatMap Cell.counts).Sublist (cells.flatMap Cell.counts) := by
  unfold filter_cells
  generalize overallCount cells = overall
  induction cells with
  | nil => exact List.Sublist.refl _
  | cons x rest ih =>
    rw [List.filterMap_cons, List.flatMap_cons]
    by_cases hemp : (x.counts.filter
        (keepEntry overall (isSingleReadCloneId mols) k)).isEmpty
    · rw [if_pos hemp]
      exact ih.trans (List.sublist_append_right _ _)
    · rw [if_neg hemp, List.flatMap_cons]
      exact List.Sublist.append (List.filter_sublist _) ih

theorem sumCounts_mono (l1 l2 : List (List Char × Nat)) (h : l1.Sublist l2)
    (cid : List Char) : sumCounts l1 cid ≤ sumCounts l2 cid := by
  unfold sumCounts
  exact List.Sublist.sum_le_sum ((h.filter _).map _) fun a _ => Nat.zero_le a

/-- Rewriting `filter_cells` as an explicit `filterMap` (definitional). -/
theorem filter_cells_eq_filterMap (cells : List Cell) (mols : List Molecule) (k : Bool) :
    filter_cells cells mols k = cells.filterMap fun cell =>
      let counts := cell.counts.filter
        (keepEntry (overallCount cells) (isSingleReadCloneId mols) k)
      if counts.isEmpty then none else some { cell_id := cell.cell_id, counts := counts } :=
  rfl

/-- C5: neither `filter_cells` (for either value of keep_single_reads) nor
`filter_visium` removes a (cell, clone_id) entry whose per-cell count
exceeds one: the entry survives, with its count unchanged, in the output
cell with the same cell id.  For `filter_visium` the statement is
conditional on the call returning (its latent KeyError on doubly matching
molecules aborts the whole call) and on the per-cell count table having
unique keys, which Python dicts guarantee. -/
theorem cell_filters_keep_multicount (cells : List Cell) (molecules : List Molecule) :
    (∀ keep_single_reads : Bool, ∀ cell ∈ cells, ∀ cid c, (cid, c) ∈ cell.counts → 1 < c →
      ∃ cell' ∈ filter_cells cells molecules keep_single_reads,
        cell'.cell_id = cell.cell_id ∧ (cid, c) ∈ cell'.counts) ∧
    (∀ out, filter_visium cells molecules = .ok out →
      ∀ cell ∈ cells, (cell.counts.map Prod.fst).Nodup →
      ∀ cid c, (cid, c) ∈ cell.counts → 1 < c →
        ∃ cell' ∈ out, cell'.cell_id = cell.cell_id ∧ (cid, c) ∈ cell'.counts) := by
  constructor
  · intro k cell hc cid c hmem hgt
    have hkeep : keepEntry (overallCount cells) (isSingleReadCloneId molecules) k (cid, c)
        = true := by
      unfold keepEntry
      rw [if_pos hgt]
    have hmem2 : (cid, c) ∈ cell.counts.filter
        (keepEntry (overallCount cells) (isSingleReadCloneId molecules) k) :=
      List.mem_filter.mpr ⟨hmem, hkeep⟩
    have hemp : (cell.counts.filter
        (keepEntry (overallCount cells) (isSingleReadCloneId molecules) k)).isEmpty
        = false := by
      cases hfil : cell.counts.filter
          (keepEntry (overallCount cells) (isSingleReadCloneId molecules) k) with
      | nil => rw [hfil] at hmem2; cases hmem2
      | cons a l => rfl
    refine ⟨⟨cell.cell_id, cell.counts.filter
        (keepEntry (overallCount cells) (isSingleReadCloneId molecules) k)⟩,
      ?_, rfl, hmem2⟩
    rw [filter_cells_eq_filterMap]
    refine List.mem_filterMap.mpr ⟨cell, hc, ?_⟩
    dsimp only
    rw [if_neg (by simp [hemp])]
  · intro out hok cell hc hnodup cid c hmem hgt
    obtain ⟨r, hr, hin⟩ := filter_visium_mem cells molecules out hok cell hc
    unfold filterVisiumCell at hr
    cases hv : visiumEntries molecules cell.cell_id cell.counts cell.counts with
    | error e => rw [hv] at hr; exact Except.noConfusion hr
    | ok final =>
      rw [hv] at hr
      dsimp only at hr
      have hfinmem : (cid, c) ∈ final := by
        refine visiumEntries_keeps molecules cell.cell_id cell.counts cell.counts final hv
          (cid, c) hmem ?_
        intro q hq hq1
        have hq1' : q.1 = cid := hq1
        have hq2 : (cid, q.2) ∈ cell.counts := by
          rw [← hq1']
          exact hq
        have hqc : q.2 = c := nodupKeys_eq cell.counts hnodup cid q.2 c hq2 hmem
        rw [hqc]
        exact hgt
      have hemp : final.isEmpty = false := by
        cases hfin : final with
        | nil => rw [hfin] at hfinmem; cases hfinmem
        | cons a l => rfl
      rw [if_neg (by simp [hemp])] at hr
      have hre : r = some { cell_id := cell.cell_id, counts := final } :=
        (Except.ok.inj hr).symm
      exact ⟨{ cell_id := cell.cell_id, counts := final },
        hin { cell_id := cell.cell_id, counts := final } hre, rfl, hfinmem⟩

theorem cell_filters_keep_multicount_witness :
    (∃ cell' ∈ filter_cells [{ cell_id := ['c'], counts := [(['A'], 2)] }] [] false,
      cell'.cell_id = (({ cell_id := ['c'], counts := [(['A'], 2)] } : Cell)).cell_id ∧
        (['A'], 2) ∈ cell'.counts) ∧
    (∃ cell' ∈ [({ cell_id := ['c'], counts := [(['A'], 2)] } : Cell)],
      cell'.cell_id = (({ cell_id := ['c'], counts := [(['A'], 2)] } : Cell)).cell_id ∧
        (['A'], 2) ∈ cell'.counts) :=
  ⟨(cell_filters_keep_multicount [{ cell_id := ['c'], counts := [(['A'], 2)] }] []).1
      false { cell_id := ['c'], counts := [(['A'], 2)] } (by decide) ['A'] 2 (by decide)
      (by decide),
   (cell_filters_keep_multicount [{ cell_id := ['c'], counts := [(['A'], 2)] }] []).2
      [{ cell_id := ['c'], counts := [(['A'], 2)] }] (by rfl)
      { cell_id := ['c'], counts := [(['A'], 2)] } (by decide) (by decide) ['A'] 2
      (by decide) (by decide)⟩

/-- C6: cell filtering is idempotent.  Running `filter_cells` on its own
output (same molecules, same flag) returns that output unchanged: surviving
low-count entries have overall counts that can only decrease, so no further
entry is removed.  Likewise a successful `filter_visium` run is a fixed
point of a second run. -/
theorem cell_filters_idempotent :
    (∀ (cells : List Cell) (mols : List Molecule) (k : Bool),
      filter_cells (filter_cells cells mols k) mols k = filter_cells cells mols k) ∧
    (∀ (cells : List Cell) (mols : List Molecule) (out : List Cell),
      filter_visium cells mols = .ok out → filter_visium out mols = .ok out) := by
  constructor
  · intro cells mols k
    have hover : ∀ cid,
        overallCount (filter_cells cells mols k) cid ≤ overallCount cells cid := fun cid =>
      sumCounts_mono _ _ (filter_cells_flatMap_sublist cells mols k) cid
    rw [filter_cells_eq_filterMap (filter_cells cells mols k) mols k]
    apply filterMap_eq_self_of
    intro cell' hc'
    obtain ⟨hne, cell, hcell, hid, hcounts⟩ := filter_cells_mem_elim cells mols k cell' hc'
    have hkeep2 : ∀ p ∈ cell'.counts,
        keepEntry (overallCount (filter_cells cells mols k)) (isSingleReadCloneId mols) k p
          = true := by
      intro p hp
      have hp1 : keepEntry (overallCount cells) (isSingleReadCloneId mols) k p = true := by
        rw [hcounts] at hp
        exact (List.mem_filter.mp hp).2
      unfold keepEntry at hp1 ⊢
      by_cases hgt : 1 < p.2
      · rw [if_pos hgt]
      · rw [if_neg hgt] at hp1 ⊢
        by_cases hov : 1 < overallCount cells p.1
        · rw [if_pos hov] at hp1
          exact absurd hp1 (by simp)
        · have hov2 : ¬1 < overallCount (filter_cells cells mols k) p.1 := fun hh =>
            hov (Nat.lt_of_lt_of_le hh (hover p.1))
          rw [if_neg hov2]
          rw [if_neg hov] at hp1
          exact hp1
    dsimp only
    rw [List.filter_eq_self.mpr hkeep2]
    have hemp : cell'.counts.isEmpty = false := by
      cases hfin : cell'.counts with
      | nil => exact absurd hfin hne
      | cons a l => rfl
    rw [if_neg (by simp [hemp])]
  · intro cells mols out h
    exact filter_visium_idem cells mols out h

theorem cell_filters_idempotent_witness :
    filter_visium [] [{ cell_id := ['c'], umi := ['u'], clone_id := ['A'], read_count := 1 }]
      = .ok [] :=
  cell_filters_idempotent.2 [{ cell_id := ['c'], counts := [(['A'], 1)] }]
    [{ cell_id := ['c'], umi := ['u'], clone_id := ['A'], read_count := 1 }] [] (by rfl)

theorem keyLt_trans (counts : List Char → Nat) (a b c : List Char)
    (h1 : keyLt counts a b) (h2 : keyLt counts b c) : keyLt counts a c := by
  unfold keyLt at h1 h2 ⊢
  rcases h1 with h1 | ⟨h1e, h1l⟩ <;> rcases h2 with h2 | ⟨h2e, h2l⟩
  · exact Or.inl (h1.trans h2)
  · exact Or.inl (h2e ▸ h1)
  · exact Or.inl (h1e ▸ h2)
  · exact Or.inr ⟨h1e.trans h2e, h1l.trans h2l⟩

theorem keyLe_combine (counts : List Char → Nat) (a m r : List Char)
    (h1 : a = m ∨ keyLt counts a m) (h2 : m = r ∨ keyLt counts m r) :
    a = r ∨ keyLt counts a r := by
  rcases h1 with rfl | h1 <;> rcases h2 with rfl | h2
  · exact Or.inl rfl
  · exact Or.inr h2
  · exact Or.inr h1
  · exact Or.inr (keyLt_trans counts a m r h1 h2)

theorem foldlMax_spec (counts : List Char → Nat) :
    ∀ (xs : List (List Char)) (x : List Char),
    (xs.foldl (fun best bc => if keyLt counts best bc then bc else best) x) ∈ x :: xs ∧
    ∀ b ∈ x :: xs,
      b = xs.foldl (fun best bc => if keyLt counts best bc then bc else best) x ∨
      keyLt counts b (xs.foldl (fun best bc => if keyLt counts best bc then bc else best) x) := by
  intro xs
  induction xs with
  | nil =>
    intro x
    refine ⟨List.mem_cons_self x [], fun b hb => ?_⟩
    rcases List.mem_cons.mp hb with rfl | hb'
    · exact Or.inl rfl
    · cases hb'
  | cons y ys ih =>
    intro x
    rw [List.foldl_cons]
    obtain ⟨hmem, hmax⟩ := ih (if keyLt counts x y then y else x)
    have hstep : (if keyLt counts x y then y else x) = x ∨
        (if keyLt counts x y then y else x) = y := by
      by_cases h : keyLt counts x y
      · rw [if_pos h]; exact Or.inr rfl
      · rw [if_neg h]; exact Or.inl rfl
    have hxle : x = (if keyLt counts x y then y else x) ∨
        keyLt counts x (if keyLt counts x y then y else x) := by
      by_cases h : keyLt counts x y
      · rw [if_pos h]; exact Or.inr h
      · rw [if_neg h]; exact Or.inl rfl
    have hyle : y = (if keyLt counts x y then y else x) ∨
        keyLt counts y (if keyLt counts x y then y else x) := by
      by_cases h : keyLt counts x y
      · rw [if_pos h]; exact Or.inl rfl
      · rw [if_neg h]
        rcases Nat.lt_trichotomy (counts x) (counts y) with hn | hn | hn
        · exact absurd (Or.inl hn) h
        · rcases lt_trichotomy x y with hl | hl | hl
          · exact absurd (Or.inr ⟨hn, hl⟩) h
          · exact Or.inl hl.symm
          · exact Or.inr (Or.inr ⟨hn.symm, hl⟩)
        · exact Or.inr (Or.inl hn)
    have hhead := hmax _ (List.mem_cons_self _ ys)
    constructor
    · rcases List.mem_cons.mp hmem with heq | hmem'
      · rcases hstep with hs | hs
        · rw [heq, hs]; exact List.mem_cons_self x (y :: ys)
        · rw [heq, hs]; exact List.mem_cons_of_mem x (List.mem_cons_self y ys)
      · exact List.mem_cons_of_mem x (List.mem_cons_of_mem y hmem')
    · intro b hb
      rcases List.mem_cons.mp hb with rfl | hb'
      · exact keyLe_combine counts b _ _ hxle hhead
      · rcases List.mem_cons.mp hb' with rfl | hb''
        · exact keyLe_combine counts b _ _ hyle hhead
        · exact hmax b (List.mem_cons_of_mem _ hb'')

theorem pyMaxByKey_mem_max (counts : List Char → Nat) (cluster : List (List Char))
    (h : cluster ≠ []) :
    pyMaxByKey counts cluster ∈ cluster ∧
    ∀ b ∈ cluster, b = pyMaxByKey counts cluster ∨
      keyLt counts b (pyMaxByKey counts cluster) := by
  cases cluster with
  | nil => exact absurd rfl h
  | cons x xs => exact foldlMax_spec counts xs x

theorem clusterFold_get (v : List Char) (cluster : List (List Char))
    (m : List Char → Option (List Char)) (k : List Char) :
    (cluster.foldl (fun m cid => dictInsert m cid v) m) k =
      if k ∈ cluster then some v else m k := by
  induction cluster generalizing m with
  | nil => simp
  | cons c rest ih =>
    rw [List.foldl_cons, ih]
    by_cases hk : k ∈ rest
    · rw [if_pos hk, if_pos (List.mem_cons_of_mem c hk)]
    · rw [if_neg hk]
      unfold dictInsert
      by_cases hkc : k = c
      · rw [if_pos hkc, if_pos (by rw [hkc]; exact List.mem_cons_self c rest)]
      · rw [if_neg hkc, if_neg (by
          intro hmem
          rcases List.mem_cons.mp hmem with h1 | h1
          · exact hkc h1
          · exact hk h1)]

theorem cloneIdMapFold_notmem (counts : List Char → Nat)
    (clusters : List (List (List Char))) (m : List Char → Option (List Char))
    (k : List Char) (hnot : ∀ c ∈ clusters, 1 < c.length → k ∉ c) :
    (clusters.foldl
      (fun m cluster =>
        if 1 < cluster.length then
          cluster.foldl (fun m cid => dictInsert m cid (pyMaxByKey counts cluster)) m
        else m) m) k = m k := by
  induction clusters generalizing m with
  | nil => rfl
  | cons d rest ih =>
    rw [List.foldl_cons]
    by_cases hd : 1 < d.length
    · rw [if_pos hd]
      rw [ih _ fun c hc => hnot c (List.mem_cons_of_mem d hc)]
      rw [clusterFold_get, if_neg (hnot d (List.mem_cons_self d rest) hd)]
    · rw [if_neg hd]
      exact ih m fun c hc => hnot c (List.mem_cons_of_mem d hc)

theorem cloneIdMapFold_mem (counts : List Char → Nat) :
    ∀ (clusters : List (List (List Char))) (m : List Char → Option (List Char))
    (k : List Char) (c : List (List Char)),
    clusters.Pairwise (fun c d => ∀ x, x ∈ c → x ∉ d) →
    c ∈ clusters → 1 < c.length → k ∈ c →
    (clusters.foldl
      (fun m cluster =>
        if 1 < cluster.length then
          cluster.foldl (fun m cid => dictInsert m cid (pyMaxByKey counts cluster)) m
        else m) m) k = some (pyMaxByKey counts c) := by
  intro clusters
  induction clusters with
  | nil => intro m k c _ hc; cases hc
  | cons d rest ih =>
    intro m k c hdisj hc hlen hk
    rw [List.pairwise_cons] at hdisj
    rw [List.foldl_cons]
    rcases List.mem_cons.mp hc with rfl | hc'
    · rw [if_pos hlen]
      rw [cloneIdMapFold_notmem counts rest _ k fun c' hc' _ => hdisj.1 c' hc' k hk]
      rw [clusterFold_get, if_pos hk]
    · have hkd : k ∉ d := fun hkd => hdisj.1 c hc' k hkd hk
      by_cases hd : 1 < d.length
      · rw [if_pos hd]
        exact ih _ k c hdisj.2 hc' hlen hk
      · rw [if_neg hd]
        exact ih m k c hdisj.2 hc' hlen hk

theorem cloneIdMap_eq_some (counts : List Char → Nat) (clusters : List (List (List Char)))
    (hdisj : clusters.Pairwise (fun c d => ∀ x, x ∈ c → x ∉ d))
    (c : List (List Char)) (hc : c ∈ clusters) (hlen : 1 < c.length)
    (k : List Char) (hk : k ∈ c) :
    cloneIdMap counts clusters k = some (pyMaxByKey counts c) :=
  cloneIdMapFold_mem counts clusters _ k c hdisj hc hlen hk

theorem cloneIdMap_eq_none (counts : List Char → Nat) (clusters : List (List (List Char)))
    (k : List Char) (hnot : ∀ c ∈ clusters, 1 < c.length → k ∉ c) :
    cloneIdMap counts clusters k = none :=
  cloneIdMapFold_notmem counts clusters _ k hnot

/-- C4: given clusters as produced by `cluster_sequences` (pairwise disjoint,
see `IsPartitionOutput`), the representative of every cluster is its
(occurrence count, string)-maximal member — so its global count is at least
every other member's, with count ties broken by the lexicographically
greatest string — and `correct_clone_ids` rewrites each molecule whose
clone id lies in a cluster of more than one member to that representative,
while molecules whose clone id lies only in singleton clusters are
unchanged. -/
theorem correct_clone_ids_cluster_representative (clusters : List (List (List Char)))
    (molecules : List Molecule) (hpart : IsPartitionOutput clusters) :
    (∀ c ∈ clusters, c ≠ [] →
      pyMaxByKey (cloneIdCount molecules) c ∈ c ∧
      (∀ b ∈ c, cloneIdCount molecules b ≤
        cloneIdCount molecules (pyMaxByKey (cloneIdCount molecules) c)) ∧
      ∀ b ∈ c, b = pyMaxByKey (cloneIdCount molecules) c ∨
        keyLt (cloneIdCount molecules) b (pyMaxByKey (cloneIdCount molecules) c)) ∧
    List.Forall₂ (fun m m' =>
      (∀ c ∈ clusters, m.clone_id ∈ c → 1 < c.length →
        m'.clone_id = pyMaxByKey (cloneIdCount molecules) c) ∧
      ((∀ c ∈ clusters, m.clone_id ∈ c → c.length ≤ 1) → m'.clone_id = m.clone_id))
      molecules (correct_clone_ids clusters molecules) := by
  constructor
  · intro c hc hne
    obtain ⟨hmem, hmax⟩ := pyMaxByKey_mem_max (cloneIdCount molecules) c hne
    refine ⟨hmem, fun b hb => ?_, hmax⟩
    rcases hmax b hb with rfl | hlt
    · exact Nat.le_refl _
    · rcases hlt with h | ⟨h, _⟩
      · exact Nat.le_of_lt h
      · exact Nat.le_of_eq h
  · unfold correct_clone_ids
    rw [List.forall₂_map_right_iff]
    refine List.forall₂_same.mpr fun mol hmol => ⟨?_, ?_⟩
    · intro c hc hmem hlen
      show ((cloneIdMap (cloneIdCount molecules) clusters) mol.clone_id).getD mol.clone_id
        = pyMaxByKey (cloneIdCount molecules) c
      rw [cloneIdMap_eq_some (cloneIdCount molecules) clusters hpart.1 c hc hlen
        mol.clone_id hmem]
      rfl
    · intro hsmall
      show ((cloneIdMap (cloneIdCount molecules) clusters) mol.clone_id).getD mol.clone_id
        = mol.clone_id
      rw [cloneIdMap_eq_none (cloneIdCount molecules) clusters mol.clone_id
        fun c hc hlen hk => absurd (hsmall c hc hk) (Nat.not_le.mpr hlen)]
      rfl

/-- Concrete clusters used by the C4 witness: a singleton cluster and a
two-member cluster. -/
def clustersW : List (List (List Char)) := [[['A']], [['B'], ['C']]]

/-- Concrete molecules used by the C4 witness: clone id C occurs twice, B
once, so C is the representative of the two-member cluster. -/
def moleculesW : List Molecule :=
  [{ cell_id := ['c'], umi := ['u'], clone_id := ['B'], read_count := 1 },
   { cell_id := ['c'], umi := ['v'], clone_id := ['C'], read_count := 1 },
   { cell_id := ['c'], umi := ['w'], clone_id := ['C'], read_count := 1 }]

theorem correct_clone_ids_cluster_representative_witness :
    (∀ c ∈ clustersW, c ≠ [] →
      pyMaxByKey (cloneIdCount moleculesW) c ∈ c ∧
      (∀ b ∈ c, cloneIdCount moleculesW b ≤
        cloneIdCount moleculesW (pyMaxByKey (cloneIdCount moleculesW) c)) ∧
      ∀ b ∈ c, b = pyMaxByKey (cloneIdCount moleculesW) c ∨
        keyLt (cloneIdCount moleculesW) b (pyMaxByKey (cloneIdCount moleculesW) c)) ∧
    List.Forall₂ (fun m m' =>
      (∀ c ∈ clustersW, m.clone_id ∈ c → 1 < c.length →
        m'.clone_id = pyMaxByKey (cloneIdCount moleculesW) c) ∧
      ((∀ c ∈ clustersW, m.clone_id ∈ c → c.length ≤ 1) → m'.clone_id = m.clone_id))
      moleculesW (correct_clone_ids clustersW moleculesW) :=
  correct_clone_ids_cluster_representative clustersW moleculesW
    ⟨by decide, by decide⟩

/-- C8: the group-to-consensus map realized by the pipeline is invariant
under permutation of the reads of a (cell, umi) group: `read_bam`
(180425_lineage_loom.py line 130) sorts the reads by (umi, cellID, barcode)
before grouping, so any two orderings of the same multiset of barcodes are
canonicalized to the same sorted list, and the consensus computation of
lines 210-237 sees identical input. -/
theorem moleculeClone_perm_invariant (len_bc : Nat) (g g' : List (List Char))
    (h : g.Perm g') : moleculeClone len_bc g = moleculeClone len_bc g' := by
  unfold moleculeClone sortGroup
  have hsort : List.insertionSort (· ≤ ·) g = List.insertionSort (· ≤ ·) g' :=
    List.eq_of_perm_of_sorted
      (((List.perm_insertionSort _ g).trans h).trans (List.perm_insertionSort _ g').symm)
      (List.sorted_insertionSort _ g) (List.sorted_insertionSort _ g')
  rw [hsort]

theorem moleculeClone_perm_invariant_witness :
    moleculeClone 2 [['A','T'], ['A','C']] = moleculeClone 2 [['A','C'], ['A','T']] :=
  moleculeClone_perm_invariant 2 [['A','T'], ['A','C']] [['A','C'], ['A','T']] (by decide)

/-- The character that one aligned pair with a present reference position
contributes to the barcode: positions strictly inside `(start_bc, end_bc)`
contribute the query base, or `'0'` when the query position is absent
(180425_lineage_loom.py lines 112-116); other pairs contribute nothing. -/
def emitChar (start_bc end_bc : Int) (r : BamRead) (p : Option Nat × Option Int) :
    Option Char :=
  match p.2 with
  | none => none
  | some rp =>
    if start_bc < rp ∧ rp < end_bc then
      match p.1 with
      | none => some '0'
      | some qp => some (r.queryseq.getD qp '?')
    else none

theorem foldl_extractStep_eq (start_bc end_bc : Int) (r : BamRead) :
    ∀ (pairs : List (Option Nat × Option Int)) (acc : List Char),
    (∀ p ∈ pairs, p.2.isSome) →
    pairs.foldl (extractStep start_bc end_bc r) acc =
      acc ++ pairs.filterMap (emitChar start_bc end_bc r) := by
  intro pairs
  induction pairs with
  | nil => intro acc _; simp
  | cons p rest ih =>
    intro acc hall
    obtain ⟨qp?, rp?⟩ := p
    cases rp? with
    | none =>
      exact absurd (hall (qp?, none) (List.mem_cons_self _ _)) (by simp)
    | some rp =>
      rw [List.foldl_cons, List.filterMap_cons]
      have hrest : ∀ p ∈ rest, p.2.isSome := fun p hp =>
        hall p (List.mem_cons_of_mem _ hp)
      by_cases hw : start_bc < rp ∧ rp < end_bc
      · cases qp? with
        | none =>
          have hstep : extractStep start_bc end_bc r acc (none, some rp) = acc ++ ['0'] := by
            unfold extractStep
            dsimp only
            rw [if_pos hw]
          have hemit : emitChar start_bc end_bc r (none, some rp) = some '0' := by
            unfold emitChar
            dsimp only
            rw [if_pos hw]
          rw [hstep, hemit, ih (acc ++ ['0']) hrest, List.append_assoc]
          rfl
        | some qp =>
          have hstep : extractStep start_bc end_bc r acc (some qp, some rp) =
              acc ++ [r.queryseq.getD qp '?'] := by
            unfold extractStep
            dsimp only
            rw [if_pos hw]
          have hemit : emitChar start_bc end_bc r (some qp, some rp) =
              some (r.queryseq.getD qp '?') := by
            unfold emitChar
            dsimp only
            rw [if_pos hw]
          rw [hstep, hemit, ih (acc ++ [r.queryseq.getD qp '?']) hrest, List.append_assoc]
          rfl
      · have hstep : extractStep start_bc end_bc r acc (qp?, some rp) = acc := by
          cases qp? with
          | none =>
            unfold extractStep
            dsimp only
            rw [if_neg hw]
          | some qp =>
            unfold extractStep
            dsimp only
            rw [if_neg hw]
        have hemit : emitChar start_bc end_bc r (qp?, some rp) = none := by
          unfold emitChar
          dsimp only
          rw [if_neg hw]
        rw [hstep, hemit, ih acc hrest]

theorem filterMap_emit_length_eq (start_bc end_bc : Int) (r : BamRead) :
    ∀ pairs : List (Option Nat × Option Int), (∀ p ∈ pairs, p.2.isSome) →
    (pairs.filterMap (emitChar start_bc end_bc r)).length =
      ((pairs.filterMap Prod.snd).filter fun rp =>
        decide (start_bc < rp) && decide (rp < end_bc)).length := by
  intro pairs
  induction pairs with
  | nil => intro _; rfl
  | cons p rest ih =>
    intro hall
    obtain ⟨qp?, rp?⟩ := p
    cases rp? with
    | none => exact absurd (hall (qp?, none) (List.mem_cons_self _ _)) (by simp)
    | some rp =>
      have hrest : ∀ p ∈ rest, p.2.isSome := fun p hp =>
        hall p (List.mem_cons_of_mem _ hp)
      rw [List.filterMap_cons, List.filterMap_cons]
      dsimp only
      rw [List.filter_cons]
      by_cases hw : start_bc < rp ∧ rp < end_bc
      · have hcond : (decide (start_bc < rp) && decide (rp < end_bc)) = true := by
          simp [hw.1, hw.2]
        rw [hcond]
        have hemit : emitChar start_bc end_bc r (qp?, some rp) =
            some (match qp? with
              | none => '0'
              | some qp => r.queryseq.getD qp '?') := by
          unfold emitChar
          dsimp only
          rw [if_pos hw]
          cases qp? <;> rfl
        rw [hemit, if_pos rfl]
        dsimp only
        rw [List.length_cons, ih hrest, List.length_cons]
      · have hcond : (decide (start_bc < rp) && decide (rp < end_bc)) = false := by
          rcases Decidable.not_and_iff_or_not.mp hw with h | h <;> simp [h]
        rw [hcond]
        have hemit : emitChar start_bc end_bc r (qp?, some rp) = none := by
          unfold emitChar
          dsimp only
          rw [if_neg hw]
        rw [hemit]
        exact ih hrest

theorem filterMap_emit_length_le (start_bc end_bc : Int) (r : BamRead)
    (hall : ∀ p ∈ r.aligned_pairs, p.2.isSome)
    (hnodup : (r.aligned_pairs.filterMap Prod.snd).Nodup) :
    (r.aligned_pairs.filterMap (emitChar start_bc end_bc r)).length ≤
      (end_bc - start_bc - 1).toNat := by
  rw [filterMap_emit_length_eq start_bc end_bc r r.aligned_pairs hall]
  set refs := (r.aligned_pairs.filterMap Prod.snd).filter fun rp =>
    decide (start_bc < rp) && decide (rp < end_bc) with hrefs
  have hnd : refs.Nodup := hnodup.filter _
  have hsub : refs.toFinset ⊆ Finset.Ioo start_bc end_bc := by
    intro x hx
    rw [List.mem_toFinset] at hx
    rw [hrefs] at hx
    have := List.of_mem_filter hx
    rw [Finset.mem_Ioo]
    constructor
    · exact of_decide_eq_true (Bool.and_elim_left this)
    · exact of_decide_eq_true (Bool.and_elim_right this)
  calc refs.length = refs.toFinset.card := (List.toFinset_card_of_nodup hnd).symm
    _ ≤ (Finset.Ioo start_bc end_bc).card := Finset.card_le_card hsub
    _ = (end_bc - start_bc - 1).toNat := Int.card_Ioo start_bc end_bc

theorem filterMap_emit_chars (start_bc end_bc : Int) (r : BamRead)
    (hq : ∀ ch ∈ r.queryseq, ch ∈ ['A', 'C', 'G', 'T'])
    (hbound : ∀ p ∈ r.aligned_pairs, ∀ qp, p.1 = some qp → qp < r.queryseq.length) :
    ∀ ch ∈ r.aligned_pairs.filterMap (emitChar start_bc end_bc r),
      ch ∈ ['A', 'C', 'G', 'T', '0', '-'] := by
  intro ch hch
  obtain ⟨p, hp, hemit⟩ := List.mem_filterMap.mp hch
  unfold emitChar at hemit
  cases hp2 : p.2 with
  | none => rw [hp2] at hemit; exact Option.noConfusion hemit
  | some rp =>
    rw [hp2] at hemit
    dsimp only at hemit
    by_cases hw : start_bc < rp ∧ rp < end_bc
    · rw [if_pos hw] at hemit
      cases hp1 : p.1 with
      | none =>
        rw [hp1] at hemit
        rw [← Option.some.inj hemit]
        decide
      | some qp =>
        rw [hp1] at hemit
        have hlt : qp < r.queryseq.length := hbound p hp qp hp1
        have hget : r.queryseq.getD qp '?' = r.queryseq.get ⟨qp, hlt⟩ := by
          rw [List.getD_eq_getElem r.queryseq '?' hlt]
          simp
        rw [← Option.some.inj hemit, hget]
        have := hq (r.queryseq.get ⟨qp, hlt⟩) (r.queryseq.get_mem _ _)
        simp only [List.mem_cons, List.not_mem_nil, or_false] at this
        rcases this with h | h | h | h
        · rw [h]; decide
        · rw [h]; decide
        · rw [h]; decide
        · rw [h]; decide
    · rw [if_neg hw] at hemit
      exact Option.noConfusion hemit

/-- Counterexample to C2 as stated: on the valid interval `[0, 2)` and a
perfectly well-formed, fully aligned two-base read, `read_bam` produces a
barcode of length 1, not `end - start = 2` — the extraction window
`start_bc < ref_pos < end_bc` is open on both sides and the padding target
`len_bc` is computed as `end_bc - start_bc - 1` (180425_lineage_loom.py
line 77). -/
theorem extractBarcode_length_not_end_minus_start :
    (extractBarcode 0 2 fullReadTwo).length = 1 ∧
    (extractBarcode 0 2 fullReadTwo).length ≠ (2 - 0 : Int).toNat := by
  decide

/-- C2 amended: for a valid interval and a well-formed fully aligned read
(every alignment pair carries a reference position, reference positions are
pairwise distinct, query positions are in range, and the query sequence is
over A/C/G/T), the extracted barcode has length exactly
`end - start - 1` — not `end - start` — and all its symbols lie in
the alphabet A, C, G, T, 0, dash. -/
theorem extractBarcode_length_alphabet (start_bc end_bc : Int) (r : BamRead)
    (hint : start_bc < end_bc)
    (href : ∀ p ∈ r.aligned_pairs, p.2.isSome)
    (hnodup : (r.aligned_pairs.filterMap Prod.snd).Nodup)
    (hq : ∀ ch ∈ r.queryseq, ch ∈ ['A', 'C', 'G', 'T'])
    (hbound : ∀ p ∈ r.aligned_pairs, ∀ qp, p.1 = some qp → qp < r.queryseq.length) :
    (extractBarcode start_bc end_bc r).length = (end_bc - start_bc - 1).toNat ∧
    ∀ ch ∈ extractBarcode start_bc end_bc r, ch ∈ ['A', 'C', 'G', 'T', '0', '-'] := by
  have hfold := foldl_extractStep_eq start_bc end_bc r r.aligned_pairs [] href
  rw [List.nil_append] at hfold
  have hlen_le := filterMap_emit_length_le start_bc end_bc r href hnodup
  have hchars := filterMap_emit_chars start_bc end_bc r hq hbound
  set em := r.aligned_pairs.filterMap (emitChar start_bc end_bc r) with hem
  have hLeq : (((end_bc - start_bc - 1).toNat : Int)) = end_bc - start_bc - 1 :=
    Int.toNat_of_nonneg (by omega)
  unfold extractBarcode
  dsimp only
  rw [hfold]
  by_cases hnil : em = []
  · rw [if_pos hnil]
    have hrep : ((List.replicate (end_bc - start_bc - 1).toNat '-').length : Int)
        = end_bc - start_bc - 1 := by
      rw [List.length_replicate]
      exact hLeq
    rw [if_neg (by rw [hrep]; omega)]
    refine ⟨List.length_replicate _ _, fun ch hch => ?_⟩
    rw [List.eq_of_mem_replicate hch]
    decide
  · rw [if_neg hnil]
    by_cases hshort : ((em.length : Int) < end_bc - start_bc - 1)
    · rw [if_pos hshort]
      have hlen2 : (end_bc - start_bc - 1 - (em.length : Int)).toNat
          = (end_bc - start_bc - 1).toNat - em.length := by omega
      have hlenlt : em.length < (end_bc - start_bc - 1).toNat := by omega
      by_cases hpos : start_bc - r.len_read < r.ref_start ∧
          r.ref_start < start_bc - r.len_read + (end_bc - start_bc - 1) + 2
      · rw [if_pos hpos]
        constructor
        · rw [List.length_append, List.length_replicate, hlen2]
          omega
        · intro ch hch
          rcases List.mem_append.mp hch with h | h
          · exact hchars ch h
          · rw [List.eq_of_mem_replicate h]
            decide
      · rw [if_neg hpos]
        constructor
        · rw [List.length_append, List.length_replicate, hlen2]
          omega
        · intro ch hch
          rcases List.mem_append.mp hch with h | h
          · rw [List.eq_of_mem_replicate h]
            decide
          · exact hchars ch h
    · rw [if_neg hshort]
      exact ⟨by omega, hchars⟩

theorem extractBarcode_length_alphabet_witness :
    (extractBarcode 0 2 fullReadTwo).length = (2 - 0 - 1 : Int).toNat ∧
    ∀ ch ∈ extractBarcode 0 2 fullReadTwo, ch ∈ ['A', 'C', 'G', 'T', '0', '-'] :=
  extractBarcode_length_alphabet 0 2 fullReadTwo (by decide) (by decide) (by decide)
    (by decide) (by decide)
